import Mathlib

/-!
Verification of the numerical-analysis kernel of `physics.py`:
the `complex2` scalar type, the direct and recursive discrete Fourier
transforms, the discrete convolution, the root finders and the RK4 stepper.

Python floats are modelled by exact real numbers `ℝ` (the claims under
scrutiny are all stated "over exact arithmetic"); Python exceptions are
modelled by `Except Err`.
-/

set_option maxHeartbeats 1000000

/-- The error kinds raised by the kernel.
`divideByZero` models both the string raise "Cannot divide by zero" in
`complex2.__div__` and Python's `ZeroDivisionError` from float division;
`invalidLength` models `ValueError("Size of x must be a power of 2.")`;
`noConvergence` models the string raise "No root was found. Try new guesses.";
`indexError` models `IndexError` from `x[0]` on an empty list;
`nameError` models `UnboundLocalError` from `return c` with `c` never assigned. -/
inductive Err where
  | divideByZero
  | invalidLength
  | noConvergence
  | indexError
  | nameError
deriving DecidableEq

/-- `class complex2`: a complex number with real and imaginary attributes
(`physics.py`, lines 525-660). -/
structure complex2 where
  re : ℝ
  im : ℝ

namespace complex2

/-- `complex2.__add__` (complex branch). -/
def add (s o : complex2) : complex2 := ⟨s.re + o.re, s.im + o.im⟩

instance : Add complex2 := ⟨complex2.add⟩

/-- `complex2.__sub__` (complex branch). -/
def sub (s o : complex2) : complex2 := ⟨s.re - o.re, s.im - o.im⟩

instance : Sub complex2 := ⟨complex2.sub⟩

/-- `complex2.__mul__` (complex branch):
`complex2(other.re*self.re - other.im*self.im, other.re*self.im + other.im*self.re)`. -/
def mul (s o : complex2) : complex2 :=
  ⟨o.re * s.re - o.im * s.im, o.re * s.im + o.im * s.re⟩

instance : Mul complex2 := ⟨complex2.mul⟩

@[simp] lemma add_re (a b : complex2) : (a + b).re = a.re + b.re := rfl
@[simp] lemma add_im (a b : complex2) : (a + b).im = a.im + b.im := rfl
@[simp] lemma sub_re (a b : complex2) : (a - b).re = a.re - b.re := rfl
@[simp] lemma sub_im (a b : complex2) : (a - b).im = a.im - b.im := rfl
@[simp] lemma mul_re (a b : complex2) : (a * b).re = b.re * a.re - b.im * a.im := rfl
@[simp] lemma mul_im (a b : complex2) : (a * b).im = b.re * a.im + b.im * a.re := rfl

/-- `complex2.__rmul__` and the scalar branch of `__mul__`:
multiplication by a real scalar. -/
def smulR (r : ℝ) (s : complex2) : complex2 :=
  ⟨r * s.re, r * s.im⟩

/-- `complex2.mag` (also `__abs__`): `math.sqrt(self.re**2 + self.im**2)`. -/
noncomputable def mag (s : complex2) : ℝ :=
  Real.sqrt (s.re ^ 2 + s.im ^ 2)

/-- `complex2(0, 0)`. -/
def zero : complex2 := ⟨0, 0⟩

/-- `complex2(0, 1)`, the imaginary unit `i` used by the transforms. -/
def I : complex2 := ⟨0, 1⟩

/-- `complex2.__div__`, complex-divisor branch: raises when the divisor's
magnitude is zero, otherwise returns the componentwise quotient formula. -/
noncomputable def div (s o : complex2) : Except Err complex2 :=
  if o.mag = 0 then .error .divideByZero
  else .ok ⟨(s.re * o.re + s.im * o.im) / (o.re ^ 2 + o.im ^ 2),
            (s.im * o.re - s.re * o.im) / (o.re ^ 2 + o.im ^ 2)⟩

/-- `complex2.__div__`, real-divisor branch: raises when the divisor is zero,
otherwise divides both components. -/
noncomputable def divReal (s : complex2) (o : ℝ) : Except Err complex2 :=
  if o = 0 then .error .divideByZero
  else .ok ⟨s.re / o, s.im / o⟩

/-- The value computed by the real-divisor branch of `complex2.__div__`.
The transforms below divide only by `math.sqrt(N)` with `N ≥ 1`, so the
zero-divisor check of `__div__` can never fire there and they are embedded
with this total quotient (`divReal` is the checked embedding of `__div__`). -/
noncomputable def divR (s : complex2) (o : ℝ) : complex2 :=
  ⟨s.re / o, s.im / o⟩

end complex2

/-- `exp2` (`physics.py`, lines 662-668) on a `complex2` argument:
`math.exp(x.re)*complex2(math.cos(x.im), math.sin(x.im))`.
(The transforms only ever call `exp2` on `complex2` values, so the real
fallback branch of the source is not needed here.) -/
noncomputable def exp2 (x : complex2) : complex2 :=
  complex2.smulR (Real.exp x.re) ⟨Real.cos x.im, Real.sin x.im⟩

/-! ### Bridge from `complex2` to Mathlib's `ℂ` -/

/-- Interpretation of a `complex2` value as a Mathlib complex number. -/
def toC (s : complex2) : ℂ := ⟨s.re, s.im⟩

@[simp] lemma toC_re (s : complex2) : (toC s).re = s.re := rfl

@[simp] lemma toC_im (s : complex2) : (toC s).im = s.im := rfl

lemma toC_injective : Function.Injective toC := by
  intro a b h
  cases a; cases b
  simpa [toC, Complex.ext_iff] using h

@[simp] lemma toC_add (a b : complex2) : toC (a + b) = toC a + toC b := by
  simp [Complex.ext_iff]

@[simp] lemma toC_sub (a b : complex2) : toC (a - b) = toC a - toC b := by
  simp [Complex.ext_iff]

@[simp] lemma toC_mul (a b : complex2) : toC (a * b) = toC a * toC b := by
  simp only [Complex.ext_iff, Complex.mul_re, Complex.mul_im, toC_re, toC_im,
    complex2.mul_re, complex2.mul_im]
  constructor <;> ring

@[simp] lemma toC_smulR (r : ℝ) (a : complex2) :
    toC (complex2.smulR r a) = (r : ℂ) * toC a := by
  simp [Complex.ext_iff, complex2.smulR, toC, Complex.mul_re, Complex.mul_im]

@[simp] lemma toC_zero : toC complex2.zero = 0 := by
  simp [toC, complex2.zero, Complex.ext_iff]

@[simp] lemma toC_I : toC complex2.I = Complex.I := by
  simp [toC, complex2.I, Complex.ext_iff]

@[simp] lemma toC_divR (a : complex2) (r : ℝ) :
    toC (a.divR r) = toC a / (r : ℂ) := by
  rcases eq_or_ne r 0 with h | h
  · simp [toC, complex2.divR, Complex.ext_iff, h]
  · rw [eq_div_iff (by exact_mod_cast h)]
    simp only [Complex.ext_iff, Complex.mul_re, Complex.mul_im, toC_re, toC_im,
      Complex.ofReal_re, Complex.ofReal_im, complex2.divR]
    constructor <;> field_simp

/-- `exp2` agrees with the complex exponential. -/
lemma toC_exp2 (x : complex2) : toC (exp2 x) = Complex.exp (toC x) := by
  simp [exp2, toC, complex2.smulR, Complex.ext_iff, Complex.exp_re, Complex.exp_im]

/-! ### Even/odd sublists (Python slices `x[0::2]` and `x[1::2]`) -/

/-- The even-indexed elements of a list (`x[0::2]`). -/
def evens {α : Type*} : List α → List α
  | [] => []
  | [a] => [a]
  | a :: _ :: rest => a :: evens rest

/-- The odd-indexed elements of a list (`x[1::2]`). -/
def odds {α : Type*} : List α → List α
  | [] => []
  | [_] => []
  | _ :: b :: rest => b :: odds rest

@[simp] lemma evens_length {α : Type*} : ∀ l : List α, (evens l).length = (l.length + 1) / 2
  | [] => by simp [evens]
  | [_] => by simp [evens]
  | _ :: _ :: rest => by
      simp [evens, evens_length rest]
      omega

@[simp] lemma odds_length {α : Type*} : ∀ l : List α, (odds l).length = l.length / 2
  | [] => by simp [odds]
  | [_] => by simp [odds]
  | _ :: _ :: rest => by
      simp [odds, odds_length rest]
      omega

lemma evens_getD {α : Type*} (d : α) : ∀ (l : List α) (k : ℕ),
    (evens l).getD k d = l.getD (2 * k) d
  | [], k => by simp [evens]
  | [a], k => by
      match k with
      | 0 => rfl
      | k + 1 =>
        show [a].getD (k + 1) d = [a].getD (2 * (k + 1)) d
        rw [List.getD_eq_default _ _ (by simp), List.getD_eq_default _ _ (by simp; omega)]
  | a :: b :: rest, k => by
      match k with
      | 0 => rfl
      | k + 1 =>
        show (evens rest).getD k d = (a :: b :: rest).getD (2 * (k + 1)) d
        rw [evens_getD d rest k]
        have h : 2 * (k + 1) = 2 * k + 1 + 1 := by omega
        simp [h, List.getD_cons_succ]

lemma odds_getD {α : Type*} (d : α) : ∀ (l : List α) (k : ℕ),
    (odds l).getD k d = l.getD (2 * k + 1) d
  | [], k => by simp [odds]
  | [a], k => by
      show ([] : List α).getD k d = [a].getD (2 * k + 1) d
      rw [List.getD_eq_default _ _ (by simp), List.getD_eq_default _ _ (by simp)]
  | a :: b :: rest, k => by
      match k with
      | 0 => rfl
      | k + 1 =>
        show (odds rest).getD k d = (a :: b :: rest).getD (2 * (k + 1) + 1) d
        rw [odds_getD d rest k]
        have h : 2 * (k + 1) + 1 = 2 * k + 1 + 1 + 1 := by omega
        simp [h, List.getD_cons_succ]

/-! ### Generic list lemmas -/

lemma getD_map_range {β : Type*} (F : ℕ → β) (n i : ℕ) (d : β) (h : i < n) :
    ((List.range n).map F).getD i d = F i := by
  rw [List.getD_eq_getElem _ _ (by simpa using h)]
  simp

lemma getD_eq_getD_of_lt {β : Type*} (l : List β) (i : ℕ) (d d' : β) (h : i < l.length) :
    l.getD i d = l.getD i d' := by
  rw [List.getD_eq_getElem _ _ h, List.getD_eq_getElem _ _ h]

/-- Accumulating a loop `result += h j` for `j` in `range n` is `init` plus a sum. -/
lemma foldl_add_range {M : Type*} [AddCommMonoid M] (h : ℕ → M) :
    ∀ (n : ℕ) (a : M),
      (List.range n).foldl (fun s j => s + h j) a = a + ∑ j in Finset.range n, h j
  | 0, a => by simp
  | n + 1, a => by
      rw [List.range_succ, List.foldl_append, foldl_add_range h n a, Finset.sum_range_succ]
      simp [add_assoc]

/-- Pointwise equality on `range n` gives equality of the mapped lists. -/
lemma map_range_congr {β : Type*} {F G : ℕ → β} {n : ℕ} (h : ∀ j < n, F j = G j) :
    (List.range n).map F = (List.range n).map G := by
  apply List.map_congr_left
  intro a ha
  exact h a (List.mem_range.mp ha)

/-! ### The primitive root of unity `exp(2*pi*I*t/N)` and its algebra -/

/-- `ec N t = exp(2*pi*I*t/N)`, the `t`-th power of the basic `N`-th root of
unity.  All twiddle factors of the transforms are values of this function. -/
noncomputable def ec (N : ℕ) (t : ℤ) : ℂ :=
  Complex.exp (2 * Real.pi * Complex.I * t / N)

@[simp] lemma ec_zero (N : ℕ) : ec N 0 = 1 := by
  simp [ec]

lemma ec_add (N : ℕ) (t u : ℤ) : ec N (t + u) = ec N t * ec N u := by
  rw [ec, ec, ec, ← Complex.exp_add]
  congr 1
  push_cast
  ring

lemma ec_pow (N : ℕ) (t : ℤ) (m : ℕ) : ec N t ^ m = ec N (t * m) := by
  induction m with
  | zero => simp
  | succ m ih =>
      have : t * ((m : ℤ) + 1) = t * m + t := by ring
      rw [pow_succ, ih]
      push_cast
      rw [this, ec_add]

lemma ec_mul_self (N : ℕ) (hN : N ≠ 0) (t : ℤ) : ec N ((N : ℤ) * t) = 1 := by
  have h : 2 * (Real.pi : ℂ) * Complex.I * ((N : ℤ) * t : ℤ) / (N : ℕ) =
      (t : ℂ) * (2 * Real.pi * Complex.I) := by
    rw [div_eq_iff (by exact_mod_cast hN)]
    push_cast
    ring
  rw [ec, h, Complex.exp_int_mul_two_pi_mul_I]

lemma ec_eq_one_iff (N : ℕ) (hN : N ≠ 0) (t : ℤ) : ec N t = 1 ↔ (N : ℤ) ∣ t := by
  have hNC : (N : ℂ) ≠ 0 := by exact_mod_cast hN
  have h2 : (2 * (Real.pi : ℂ) * Complex.I) ≠ 0 := by
    simp [Real.pi_ne_zero, Complex.I_ne_zero]
  rw [ec, Complex.exp_eq_one_iff]
  constructor
  · rintro ⟨n, hn⟩
    refine ⟨n, ?_⟩
    rw [div_eq_iff hNC] at hn
    have key : (t : ℂ) = (N : ℂ) * (n : ℂ) := by
      apply mul_left_cancel₀ h2
      calc 2 * (Real.pi : ℂ) * Complex.I * t
          = (n : ℂ) * (2 * Real.pi * Complex.I) * N := hn
        _ = 2 * (Real.pi : ℂ) * Complex.I * ((N : ℂ) * n) := by ring
    exact_mod_cast key
  · rintro ⟨n, rfl⟩
    refine ⟨n, ?_⟩
    push_cast
    field_simp
    ring

/-- Geometric sum of the `N`-th roots of unity: it vanishes unless `N ∣ d`. -/
lemma sum_ec (N : ℕ) (hN : N ≠ 0) (d : ℤ) :
    ∑ k in Finset.range N, ec N (d * k) = if (N : ℤ) ∣ d then (N : ℂ) else 0 := by
  by_cases hdvd : (N : ℤ) ∣ d
  · obtain ⟨q, rfl⟩ := hdvd
    have hd : (N : ℤ) ∣ (N : ℤ) * q := ⟨q, rfl⟩
    rw [if_pos hd]
    have : ∀ k ∈ Finset.range N, ec N ((N : ℤ) * q * k) = 1 := by
      intro k _
      rw [show (N : ℤ) * q * k = (N : ℤ) * (q * k) by ring]
      exact ec_mul_self N hN _
    rw [Finset.sum_congr rfl this]
    simp
  · rw [if_neg hdvd]
    have hz : ec N d ≠ 1 := fun h => hdvd ((ec_eq_one_iff N hN d).mp h)
    have hterm : ∀ k ∈ Finset.range N, ec N (d * k) = ec N d ^ k := by
      intro k _
      rw [ec_pow]
    rw [Finset.sum_congr rfl hterm, geom_sum_eq hz]
    rw [ec_pow, mul_comm d (N : ℤ), ec_mul_self N hN, sub_self, zero_div]

lemma ec_two_mul (M : ℕ) (t : ℤ) : ec (2 * M) (2 * t) = ec M t := by
  rw [ec, ec]
  congr 1
  push_cast
  rw [show (2 : ℂ) * Real.pi * Complex.I * (2 * t) = 2 * (2 * Real.pi * Complex.I * t) by ring]
  exact mul_div_mul_left _ _ two_ne_zero

lemma toC_foldl_add (h : ℕ → complex2) :
    ∀ (m : ℕ) (a : complex2),
      toC ((List.range m).foldl (fun r j => r + h j) a) =
        toC a + ∑ j in Finset.range m, toC (h j)
  | 0, a => by simp
  | m + 1, a => by
      rw [List.range_succ, List.foldl_append]
      simp only [List.foldl_cons, List.foldl_nil, toC_add]
      rw [toC_foldl_add h m a, Finset.sum_range_succ, add_assoc]

lemma list_eq_of_getD {l₁ l₂ : List complex2} (hlen : l₁.length = l₂.length)
    (h : ∀ j, j < l₁.length → l₁.getD j complex2.zero = l₂.getD j complex2.zero) :
    l₁ = l₂ := by
  apply List.ext_getElem hlen
  intro i h1 h2
  have := h i h1
  rwa [List.getD_eq_getElem _ _ h1, List.getD_eq_getElem _ _ h2] at this

/-- The twiddle factor built by the transforms out of `exp2` and the scalar
`complex2` arithmetic is a value of `ec`. -/
lemma toC_exp2_smul_I (θ : ℝ) :
    toC (exp2 (complex2.smulR θ complex2.I)) = Complex.exp ((θ : ℂ) * Complex.I) := by
  rw [toC_exp2]
  simp

lemma exp2_neg_arg (N n k : ℕ) :
    toC (exp2 (complex2.smulR (-2 * Real.pi * n * k / N) complex2.I)) =
      ec N (-((n : ℤ) * k)) := by
  rw [toC_exp2_smul_I, ec]
  congr 1
  push_cast
  ring

lemma exp2_pos_arg (N n k : ℕ) :
    toC (exp2 (complex2.smulR (2 * Real.pi * n * k / N) complex2.I)) =
      ec N ((n : ℤ) * k) := by
  rw [toC_exp2_smul_I, ec]
  congr 1
  push_cast
  ring

/-! ### Discrete convolution (`physics.py`, lines 670-682) -/

/-- `disc_convolve(f, g)`: for each `i` in `range(len(f))` accumulate
`sums += f[i-j]*g[j]` over `j` in `range(len(g))` guarded by `i >= j`. -/
def disc_convolve {α : Type*} [Semiring α] (f g : List α) : List α :=
  (List.range f.length).map fun i =>
    (List.range g.length).foldl
      (fun sums j => if i ≥ j then sums + f.getD (i - j) 0 * g.getD j 0 else sums) 0

/-- C6: `disc_convolve(f, g)` has length `len(f)` and its `i`-th element is
the causal/truncated convolution sum `Σ_{j < len(g), j ≤ i} f[i-j]·g[j]`;
terms that would index `f` at a negative position are omitted. -/
theorem disc_convolve_spec {α : Type*} [Semiring α] (f g : List α) :
    (disc_convolve f g).length = f.length ∧
    ∀ i, i < f.length →
      (disc_convolve f g).getD i 0 =
        ∑ j in (Finset.range g.length).filter (fun j => j ≤ i),
          f.getD (i - j) 0 * g.getD j 0 := by
  constructor
  · simp [disc_convolve]
  · intro i hi
    rw [disc_convolve, getD_map_range _ _ _ _ hi]
    have hbody :
        (fun (sums : α) (j : ℕ) =>
            if i ≥ j then sums + f.getD (i - j) 0 * g.getD j 0 else sums) =
          fun sums j => sums + (if j ≤ i then f.getD (i - j) 0 * g.getD j 0 else 0) := by
      funext s j
      by_cases h : j ≤ i <;> simp [h, ge_iff_le]
    rw [hbody, foldl_add_range, Finset.sum_filter, zero_add]

/-- Witness for C6 at a concrete input. -/
theorem disc_convolve_spec_witness :
    (disc_convolve [(1 : ℚ), 2] [3, 4]).length = 2 ∧
    (disc_convolve [(1 : ℚ), 2] [3, 4]).getD 1 0 =
      ∑ j in (Finset.range 2).filter (fun j => j ≤ 1),
        [(1 : ℚ), 2].getD (1 - j) 0 * [3, 4].getD j 0 :=
  ⟨(disc_convolve_spec [(1 : ℚ), 2] [3, 4]).1,
   (disc_convolve_spec [(1 : ℚ), 2] [3, 4]).2 1 (by decide)⟩

/-! ### Direct discrete Fourier transform (`physics.py`, lines 742-775) -/

/-- `disc_fourier(x)`: for each `k` in `range(N)` accumulate
`result += x[n]*exp2(-2*math.pi*i*n*k/N)` over `n` in `range(N)`, then append
`result/math.sqrt(N)`.  The argument of `exp2` is the `complex2` value
`i` scaled by `-2*pi*n*k/N`; the normalising division is by `math.sqrt(N)`
with `N ≥ 1` whenever the loop body runs, so `__div__`'s zero check cannot
fire and the total quotient `complex2.divR` is used. -/
noncomputable def disc_fourier (x : List complex2) : List complex2 :=
  (List.range x.length).map fun (k : ℕ) =>
    complex2.divR
      ((List.range x.length).foldl
        (fun (result : complex2) (n : ℕ) =>
          result + x.getD n complex2.zero *
            exp2 (complex2.smulR (-2 * Real.pi * n * k / x.length) complex2.I))
        complex2.zero)
      (Real.sqrt x.length)

/-- `disc_inv_fourier(X)`: same loop with `exp2(2*math.pi*i*n*k/N)` and the
same `1/sqrt(N)` normalisation. -/
noncomputable def disc_inv_fourier (X : List complex2) : List complex2 :=
  (List.range X.length).map fun (n : ℕ) =>
    complex2.divR
      ((List.range X.length).foldl
        (fun (result : complex2) (k : ℕ) =>
          result + X.getD k complex2.zero *
            exp2 (complex2.smulR (2 * Real.pi * n * k / X.length) complex2.I))
        complex2.zero)
      (Real.sqrt X.length)

@[simp] lemma disc_fourier_length (x : List complex2) :
    (disc_fourier x).length = x.length := by
  simp [disc_fourier]

@[simp] lemma disc_inv_fourier_length (X : List complex2) :
    (disc_inv_fourier X).length = X.length := by
  simp [disc_inv_fourier]

lemma disc_fourier_entry (x : List complex2) (k : ℕ) (hk : k < x.length) :
    toC ((disc_fourier x).getD k complex2.zero) =
      (∑ n in Finset.range x.length,
        toC (x.getD n complex2.zero) * ec x.length (-((n : ℤ) * k))) /
        (Real.sqrt x.length : ℝ) := by
  rw [disc_fourier, getD_map_range _ _ _ _ hk, toC_divR, toC_foldl_add]
  rw [toC_zero, zero_add]
  congr 1
  apply Finset.sum_congr rfl
  intro n _
  rw [toC_mul, exp2_neg_arg]

lemma disc_inv_fourier_entry (X : List complex2) (n : ℕ) (hn : n < X.length) :
    toC ((disc_inv_fourier X).getD n complex2.zero) =
      (∑ k in Finset.range X.length,
        toC (X.getD k complex2.zero) * ec X.length ((n : ℤ) * k)) /
        (Real.sqrt X.length : ℝ) := by
  rw [disc_inv_fourier, getD_map_range _ _ _ _ hn, toC_divR, toC_foldl_add]
  rw [toC_zero, zero_add]
  congr 1
  apply Finset.sum_congr rfl
  intro k _
  rw [toC_mul, exp2_pos_arg]

lemma dvd_sub_eq (N n m : ℕ) (hn : n < N) (hm : m < N)
    (h : (N : ℤ) ∣ (n : ℤ) - m) : n = m := by
  have h0 := Int.eq_zero_of_dvd_of_natAbs_lt_natAbs h (by omega)
  omega

/-- C3: applying the direct forward transform and then the direct inverse
transform reconstructs the input exactly (both scale by the same `1/sqrt(N)`
factor), for a sequence of any length. -/
theorem disc_inv_fourier_disc_fourier (x : List complex2) :
    disc_inv_fourier (disc_fourier x) = x := by
  apply list_eq_of_getD (by simp)
  intro n hn
  set N := x.length with hNdef
  have hnN : n < N := by simpa using hn
  have hN0 : N ≠ 0 := Nat.not_eq_zero_of_lt hnN
  have hNC : (N : ℂ) ≠ 0 := by exact_mod_cast hN0
  apply toC_injective
  have hlen : (disc_fourier x).length = N := by simp [hNdef]
  rw [disc_inv_fourier_entry (disc_fourier x) n (by rw [hlen]; exact hnN), hlen]
  have hFk : ∀ k ∈ Finset.range N,
      toC ((disc_fourier x).getD k complex2.zero) * ec N ((n : ℤ) * k) =
        (∑ m in Finset.range N,
          toC (x.getD m complex2.zero) * ec N (((n : ℤ) - m) * k)) /
          (Real.sqrt N : ℝ) := by
    intro k hk
    rw [disc_fourier_entry x k (by simpa [hNdef] using hk), div_mul_eq_mul_div,
      Finset.sum_mul]
    congr 1
    apply Finset.sum_congr rfl
    intro m _
    rw [mul_assoc, ← ec_add]
    congr 2
    ring
  rw [Finset.sum_congr rfl hFk, ← Finset.sum_div, div_div]
  have hss : ((Real.sqrt N : ℝ) : ℂ) * (Real.sqrt N : ℝ) = (N : ℂ) := by
    rw [← Complex.ofReal_mul, Real.mul_self_sqrt (Nat.cast_nonneg N)]
    simp
  rw [hss, Finset.sum_comm]
  have hsum : ∀ m ∈ Finset.range N,
      (∑ k in Finset.range N,
        toC (x.getD m complex2.zero) * ec N (((n : ℤ) - m) * k)) =
      toC (x.getD m complex2.zero) * (if (N : ℤ) ∣ (n : ℤ) - m then (N : ℂ) else 0) := by
    intro m _
    rw [← Finset.mul_sum, sum_ec N hN0]
  rw [Finset.sum_congr rfl hsum]
  rw [Finset.sum_eq_single n
    (fun m hm hne => by
      rw [if_neg, mul_zero]
      intro hdvd
      exact hne (dvd_sub_eq N n m hnN (by simpa using hm) hdvd).symm)
    (fun habs => absurd (Finset.mem_range.mpr hnN) habs)]
  rw [if_pos (by simp), mul_div_assoc, div_self hNC, mul_one]

/-! ### Recursive radix-2 FFT (`physics.py`, lines 684-739) -/

/-- The combine step of `dfft`'s recursive branch: it builds the twiddle list
`T = [inv*exp2(-2*inv*i*math.pi*k/N)*odd[k] for k in range(N//2)]` and returns
`[(even[k] + T[k]) for k in range(N//2)] + [(even[k] - T[k]) for k in range(N//2)]`,
with `inv = -1 if inverse else 1`. -/
noncomputable def fftCombine (even odd : List complex2) (inverse : Bool) (N : ℕ) :
    List complex2 :=
  let inv : ℝ := if inverse then -1 else 1
  let T := (List.range (N / 2)).map fun (kk : ℕ) =>
    complex2.smulR inv
      (exp2 (complex2.smulR (-2 * inv * Real.pi * kk / N) complex2.I)) *
      odd.getD kk complex2.zero
  ((List.range (N / 2)).map fun (kk : ℕ) =>
    even.getD kk complex2.zero + T.getD kk complex2.zero) ++
  ((List.range (N / 2)).map fun (kk : ℕ) =>
    even.getD kk complex2.zero - T.getD kk complex2.zero)

/-- `dfft(x, s=1, inverse=False)`.  Faithful points of the embedding:
* base case `N <= 1`: a singleton is returned unchanged (`return x` and
  `return [complex2(x[0],0)]` coincide once inputs are `complex2` values);
  an empty input raises `IndexError` from `x[0]`;
* `N % 2 > 0` raises `ValueError("Size of x must be a power of 2.")`;
* the recursive calls are `dfft(x[0::2], 2*s)` and `dfft(x[1::2], 2*s)`:
  `s` is doubled but the `inverse` flag is NOT passed on, so the
  sub-transforms always run in the forward direction;
* `T[k] = inv*exp2(-2*inv*i*math.pi*k/N)*odd[k]` for `k` in `range(N//2)`,
  where `inv = -1 if inverse else 1`;
* the two halves are `even[k] + T[k]` and `even[k] - T[k]`;
* `result = [x/math.sqrt(N) for x in result]` only when `s == 1`; at that
  point `N ≥ 2`, so the zero check of `__div__` cannot fire and the total
  quotient `complex2.divR` is used. -/
noncomputable def dfft (x : List complex2) (s : ℕ) (inverse : Bool) :
    Except Err (List complex2) :=
  if h1 : x.length ≤ 1 then
    match x with
    | [] => .error .indexError
    | a :: _ => .ok [a]
  else if h2 : x.length % 2 ≠ 0 then .error .invalidLength
  else do
    let even ← dfft (evens x) (2 * s) false
    let odd ← dfft (odds x) (2 * s) false
    let result := fftCombine even odd inverse x.length
    if s = 1 then pure (result.map fun z => z.divR (Real.sqrt x.length))
    else pure result
termination_by x.length
decreasing_by
  · simp only [evens_length]
    omega
  · simp only [odds_length]
    omega

lemma dfft_nil (s : ℕ) (inverse : Bool) : dfft [] s inverse = .error .indexError := by
  rw [dfft]
  rfl

lemma dfft_singleton (a : complex2) (s : ℕ) (inverse : Bool) :
    dfft [a] s inverse = .ok [a] := by
  rw [dfft]
  rfl

lemma dfft_odd_len (x : List complex2) (s : ℕ) (inverse : Bool)
    (h1 : ¬ x.length ≤ 1) (h2 : x.length % 2 ≠ 0) :
    dfft x s inverse = .error .invalidLength := by
  rw [dfft, dif_neg h1, dif_pos h2]

lemma dfft_unfold (x : List complex2) (s : ℕ) (inverse : Bool)
    (h1 : ¬ x.length ≤ 1) (h2 : x.length % 2 = 0) :
    dfft x s inverse = (do
      let even ← dfft (evens x) (2 * s) false
      let odd ← dfft (odds x) (2 * s) false
      let result := fftCombine even odd inverse x.length
      if s = 1 then pure (result.map fun z => z.divR (Real.sqrt x.length))
      else pure result) := by
  rw [dfft, dif_neg h1, dif_neg (by omega : ¬ x.length % 2 ≠ 0)]

lemma except_ok_bind {ε α β : Type} (a : α) (f : α → Except ε β) :
    (Except.ok a : Except ε α) >>= f = f a := rfl

lemma except_error_bind {ε α β : Type} (e : ε) (f : α → Except ε β) :
    (Except.error e : Except ε α) >>= f = .error e := rfl

/-- On a power-of-two length, `dfft` always succeeds (for either direction
and any recursion scale). -/
lemma dfft_pow2_ok : ∀ (k : ℕ) (x : List complex2), x.length = 2 ^ k →
    ∀ (s : ℕ) (inverse : Bool), ∃ y, dfft x s inverse = .ok y := by
  intro k
  induction k with
  | zero =>
    intro x hx s inverse
    obtain ⟨a, rfl⟩ := List.length_eq_one.mp hx
    exact ⟨[a], dfft_singleton a s inverse⟩
  | succ k ih =>
    intro x hx s inverse
    have hpow : (1 : ℕ) ≤ 2 ^ k := Nat.one_le_two_pow
    have hNM : (2 : ℕ) ^ (k + 1) = 2 * 2 ^ k := by rw [pow_succ]; ring
    have h1 : ¬ x.length ≤ 1 := by rw [hx, hNM]; omega
    have h2 : x.length % 2 = 0 := by rw [hx, hNM]; omega
    have hev : (evens x).length = 2 ^ k := by rw [evens_length, hx, hNM]; omega
    have hod : (odds x).length = 2 ^ k := by rw [odds_length, hx, hNM]; omega
    obtain ⟨E, hE⟩ := ih (evens x) hev (2 * s) false
    obtain ⟨O, hO⟩ := ih (odds x) hod (2 * s) false
    rw [dfft_unfold x s inverse h1 h2, hE, hO]
    simp only [except_ok_bind]
    split
    · exact ⟨_, rfl⟩
    · exact ⟨_, rfl⟩

/-- On a non-empty length that is not a power of two, `dfft` fails with the
invalid-length error (for either direction and any recursion scale). -/
lemma dfft_not_pow2 : ∀ (n : ℕ) (x : List complex2), x.length = n → n ≠ 0 →
    (¬ ∃ k : ℕ, n = 2 ^ k) → ∀ (s : ℕ) (inverse : Bool),
    dfft x s inverse = .error .invalidLength := by
  intro n
  induction n using Nat.strong_induction_on with
  | _ n ih =>
    intro x hx hn0 hnp s inverse
    rcases Nat.lt_or_ge n 2 with hlt | hge
    · interval_cases n
      · exact absurd rfl hn0
      · exact absurd ⟨0, rfl⟩ hnp
    · by_cases hodd : n % 2 = 0
      · have h1 : ¬ x.length ≤ 1 := by omega
        have hm0 : n / 2 ≠ 0 := by omega
        have hm : n / 2 < n := by omega
        have hev : (evens x).length = n / 2 := by rw [evens_length, hx]; omega
        have hevnp : ¬ ∃ k : ℕ, n / 2 = 2 ^ k := by
          rintro ⟨k, hk⟩
          refine hnp ⟨k + 1, ?_⟩
          rw [pow_succ]
          omega
        have herr := ih (n / 2) hm (evens x) hev hm0 hevnp (2 * s) false
        rw [dfft_unfold x s inverse h1 (by omega), herr, except_error_bind]
      · have h1 : ¬ x.length ≤ 1 := by omega
        exact dfft_odd_len x s inverse h1 (by omega)

lemma fftCombine_length (even odd : List complex2) (inverse : Bool) (N : ℕ) :
    (fftCombine even odd inverse N).length = N / 2 + N / 2 := by
  simp [fftCombine]

lemma fftCombine_getD_lt (even odd : List complex2) (inverse : Bool) (N : ℕ)
    (j : ℕ) (hj : j < N / 2) :
    (fftCombine even odd inverse N).getD j complex2.zero =
      even.getD j complex2.zero +
        complex2.smulR (if inverse then -1 else 1)
          (exp2 (complex2.smulR
            (-2 * (if inverse then -1 else 1) * Real.pi * j / N) complex2.I)) *
          odd.getD j complex2.zero := by
  simp only [fftCombine]
  rw [List.getD_append _ _ _ _ (by simpa using hj), getD_map_range _ _ _ _ hj,
    getD_map_range _ _ _ _ hj]

lemma fftCombine_getD_ge (even odd : List complex2) (inverse : Bool) (N : ℕ)
    (j : ℕ) (hj1 : N / 2 ≤ j) (hj2 : j < N / 2 + N / 2) :
    (fftCombine even odd inverse N).getD j complex2.zero =
      even.getD (j - N / 2) complex2.zero -
        complex2.smulR (if inverse then -1 else 1)
          (exp2 (complex2.smulR
            (-2 * (if inverse then -1 else 1) * Real.pi * ((j - N / 2 : ℕ) : ℝ) / N) complex2.I)) *
          odd.getD (j - N / 2) complex2.zero := by
  simp only [fftCombine]
  rw [List.getD_append_right _ _ _ _ (by simpa using hj1)]
  simp only [List.length_map, List.length_range]
  rw [getD_map_range _ _ _ _ (by omega), getD_map_range _ _ _ _ (by omega)]

lemma ite_false_bool {α : Type*} (a b : α) : (if (false : Bool) then a else b) = b := rfl

lemma ite_true_bool {α : Type*} (a b : α) : (if (true : Bool) then a else b) = a := rfl

/-- `ec (2M) (-M) = exp(-pi*I) = -1`. -/
lemma ec_half (M : ℕ) (hM : M ≠ 0) : ec (2 * M) (-(M : ℤ)) = -1 := by
  have hMC : (M : ℂ) ≠ 0 := by exact_mod_cast hM
  have harg : 2 * (Real.pi : ℂ) * Complex.I * ((-(M : ℤ) : ℤ) : ℂ) / ((2 * M : ℕ) : ℂ) =
      -(Real.pi * Complex.I) := by
    push_cast
    field_simp
    ring
  rw [ec, harg, Complex.exp_neg, Complex.exp_pi_mul_I]
  norm_num

/-- Split a sum over `range (2*M)` into even- and odd-indexed parts. -/
lemma sum_range_two_mul {β : Type*} [AddCommMonoid β] (M : ℕ) (f : ℕ → β) :
    ∑ n in Finset.range (2 * M), f n =
      ∑ m in Finset.range M, f (2 * m) + ∑ m in Finset.range M, f (2 * m + 1) := by
  induction M with
  | zero => simp
  | succ M ih =>
      have h : 2 * (M + 1) = 2 * M + 1 + 1 := by omega
      rw [h, Finset.sum_range_succ, Finset.sum_range_succ, ih, Finset.sum_range_succ,
        Finset.sum_range_succ]
      abel

/-- The forward twiddle factor of `dfft` as a root of unity. -/
lemma toC_twiddle (N j : ℕ) :
    toC (complex2.smulR 1
      (exp2 (complex2.smulR (-2 * 1 * Real.pi * j / N) complex2.I))) =
      ec N (-(j : ℤ)) := by
  rw [toC_smulR, toC_exp2_smul_I, ec]
  rw [Complex.ofReal_one, one_mul]
  congr 1
  push_cast
  ring

lemma ec_even_first (M m j : ℕ) :
    ec (2 * M) (-(((2 * m : ℕ) : ℤ) * j)) = ec M (-((m : ℤ) * j)) := by
  have harg : -(((2 * m : ℕ) : ℤ) * j) = 2 * (-((m : ℤ) * j)) := by
    push_cast
    ring
  rw [harg, ec_two_mul]

lemma ec_odd_first (M m j : ℕ) :
    ec (2 * M) (-(((2 * m + 1 : ℕ) : ℤ) * j)) =
      ec M (-((m : ℤ) * j)) * ec (2 * M) (-(j : ℤ)) := by
  have harg : -(((2 * m + 1 : ℕ) : ℤ) * j) = 2 * (-((m : ℤ) * j)) + -(j : ℤ) := by
    push_cast
    ring
  rw [harg, ec_add, ec_two_mul]

lemma ec_even_second (M m j' : ℕ) (hM : M ≠ 0) :
    ec (2 * M) (-(((2 * m : ℕ) : ℤ) * ((j' : ℤ) + M))) = ec M (-((m : ℤ) * j')) := by
  have harg : -(((2 * m : ℕ) : ℤ) * ((j' : ℤ) + M)) =
      2 * (-((m : ℤ) * j')) + ((2 * M : ℕ) : ℤ) * (-(m : ℤ)) := by
    push_cast
    ring
  rw [harg, ec_add, ec_two_mul, ec_mul_self _ (by omega), mul_one]

lemma ec_odd_second (M m j' : ℕ) (hM : M ≠ 0) :
    ec (2 * M) (-(((2 * m + 1 : ℕ) : ℤ) * ((j' : ℤ) + M))) =
      ec M (-((m : ℤ) * j')) * ec (2 * M) (-(j' : ℤ)) * (-1) := by
  have harg : -(((2 * m + 1 : ℕ) : ℤ) * ((j' : ℤ) + M)) =
      2 * (-((m : ℤ) * j')) + (((2 * M : ℕ) : ℤ) * (-(m : ℤ)) + (-(j' : ℤ) + -(M : ℤ))) := by
    push_cast
    ring
  rw [harg, ec_add, ec_add, ec_add, ec_two_mul, ec_mul_self _ (by omega), one_mul,
    ec_half M hM]
  ring

/-- Characterisation of the forward recursive transform on power-of-two
lengths: `dfft x s False` succeeds, and the returned coefficients are the
unnormalised DFT sums, normalised by `1/sqrt(N)` exactly when `s = 1`. -/
lemma dfft_forward_char : ∀ (k : ℕ) (x : List complex2), x.length = 2 ^ k → ∀ s : ℕ,
    ∃ y : List complex2, y.length = 2 ^ k ∧
      (∀ j, j < 2 ^ k → toC (y.getD j complex2.zero) =
        ∑ n in Finset.range (2 ^ k),
          toC (x.getD n complex2.zero) * ec (2 ^ k) (-((n : ℤ) * j))) ∧
      dfft x s false =
        .ok (if s = 1 then y.map (fun z => z.divR (Real.sqrt ((2 ^ k : ℕ) : ℝ))) else y) := by
  intro k
  induction k with
  | zero =>
    intro x hx s
    obtain ⟨a, rfl⟩ := List.length_eq_one.mp hx
    refine ⟨[a], rfl, ?_, ?_⟩
    · intro j hj
      interval_cases j
      simp [Finset.sum_range_one, ec_zero]
    · rw [dfft_singleton]
      congr 1
      split
      · simp [complex2.divR]
      · rfl
  | succ k ih =>
    intro x hx s
    have hpow : (1 : ℕ) ≤ 2 ^ k := Nat.one_le_two_pow
    have hM0 : (2 : ℕ) ^ k ≠ 0 := by omega
    have hNM : (2 : ℕ) ^ (k + 1) = 2 * 2 ^ k := by rw [pow_succ]; ring
    have h1 : ¬ x.length ≤ 1 := by rw [hx, hNM]; omega
    have h2 : x.length % 2 = 0 := by rw [hx, hNM]; omega
    have hev : (evens x).length = 2 ^ k := by rw [evens_length, hx, hNM]; omega
    have hod : (odds x).length = 2 ^ k := by rw [odds_length, hx, hNM]; omega
    obtain ⟨E, hElen, hEchar, hEeq⟩ := ih (evens x) hev (2 * s)
    obtain ⟨O, hOlen, hOchar, hOeq⟩ := ih (odds x) hod (2 * s)
    rw [if_neg (by omega : ¬ 2 * s = 1)] at hEeq hOeq
    have hhalf : (2 : ℕ) ^ (k + 1) / 2 = 2 ^ k := by omega
    refine ⟨fftCombine E O false (2 ^ (k + 1)), ?_, ?_, ?_⟩
    · rw [fftCombine_length, hhalf]
      omega
    · intro j hj
      rw [hNM] at hj
      by_cases hjM : j < 2 ^ k
      · rw [fftCombine_getD_lt E O false (2 ^ (k + 1)) j (by omega), toC_add, toC_mul,
          ite_false_bool, hNM, toC_twiddle, hEchar j hjM, hOchar j hjM]
        rw [sum_range_two_mul (2 ^ k)
          (fun n => toC (x.getD n complex2.zero) * ec (2 * 2 ^ k) (-((n : ℤ) * j)))]
        congr 1
        · apply Finset.sum_congr rfl
          intro m _
          rw [evens_getD, ec_even_first]
        · rw [Finset.mul_sum]
          apply Finset.sum_congr rfl
          intro m _
          rw [odds_getD, ec_odd_first]
          ring
      · have hjM2 : 2 ^ k ≤ j := by omega
        have hjlt : j - 2 ^ k < 2 ^ k := by omega
        have hjs : (j : ℤ) = ((j - 2 ^ k : ℕ) : ℤ) + ((2 ^ k : ℕ) : ℤ) := by
          omega
        rw [fftCombine_getD_ge E O false (2 ^ (k + 1)) j (by omega) (by omega),
          hhalf, toC_sub, toC_mul, ite_false_bool, hNM, toC_twiddle, hEchar _ hjlt,
          hOchar _ hjlt]
        rw [sum_range_two_mul (2 ^ k)
          (fun n => toC (x.getD n complex2.zero) * ec (2 * 2 ^ k) (-((n : ℤ) * j)))]
        rw [sub_eq_add_neg]
        congr 1
        · apply Finset.sum_congr rfl
          intro m _
          rw [evens_getD, hjs, ec_even_second _ _ _ hM0]
        · rw [Finset.mul_sum, ← Finset.sum_neg_distrib]
          apply Finset.sum_congr rfl
          intro m _
          rw [odds_getD, hjs, ec_odd_second _ _ _ hM0]
          ring
    · rw [dfft_unfold x s false h1 h2, hEeq, hOeq]
      simp only [except_ok_bind]
      rw [hx]
      by_cases hs : s = 1
      · rw [if_pos hs, if_pos hs]
        rfl
      · rw [if_neg hs, if_neg hs]
        rfl

lemma getD_map_lt (f : complex2 → complex2) (l : List complex2) (j : ℕ)
    (h : j < l.length) (d d' : complex2) :
    (l.map f).getD j d = f (l.getD j d') := by
  rw [List.getD_eq_getElem _ _ (by simpa using h), List.getD_eq_getElem _ _ h,
    List.getElem_map]

/-- C4: on a power-of-two length the forward recursive FFT (`dfft` with
`s = 1`, `inverse = False`) and the direct DFT `disc_fourier` produce equal
coefficients, exactly, over exact real arithmetic. -/
theorem dfft_eq_disc_fourier (x : List complex2) (hlen : ∃ k : ℕ, x.length = 2 ^ k) :
    dfft x 1 false = .ok (disc_fourier x) := by
  obtain ⟨k, hk⟩ := hlen
  obtain ⟨y, hylen, hychar, hyeq⟩ := dfft_forward_char k x hk 1
  rw [hyeq, if_pos rfl]
  congr 1
  apply list_eq_of_getD
  · simp [hk, hylen]
  · intro j hj
    have hj' : j < 2 ^ k := by simpa [hylen] using hj
    apply toC_injective
    rw [getD_map_lt _ _ _ (by rw [hylen]; exact hj') _ complex2.zero, toC_divR,
      hychar j hj', disc_fourier_entry x j (by rw [hk]; exact hj'), hk]

/-- Witness for C4 at the concrete power-of-two input `[1, 2]`. -/
theorem dfft_eq_disc_fourier_witness :
    dfft [⟨1, 0⟩, ⟨2, 0⟩] 1 false = .ok (disc_fourier [⟨1, 0⟩, ⟨2, 0⟩]) :=
  dfft_eq_disc_fourier _ ⟨1, rfl⟩

lemma five_not_pow2 : ¬ ∃ k : ℕ, (5 : ℕ) = 2 ^ k := by
  rintro ⟨k, hk⟩
  rcases Nat.lt_or_ge k 3 with h | h
  · interval_cases k <;> norm_num at hk
  · have h8 : (8 : ℕ) ≤ 2 ^ k := by
      calc (8 : ℕ) = 2 ^ 3 := by norm_num
        _ ≤ 2 ^ k := Nat.pow_le_pow_right (by omega) h
    omega

/-- C5: the recursive transform `dfft` raises `InvalidLength`
(`ValueError`) on every non-empty input whose length is not a power of two;
it raises no error on power-of-two lengths; and the direct transform
`disc_fourier` accepts any length, producing a full-length output. -/
theorem dfft_invalid_length :
    (∀ (x : List complex2) (inverse : Bool), x ≠ [] →
      (¬ ∃ k : ℕ, x.length = 2 ^ k) → dfft x 1 inverse = .error .invalidLength) ∧
    (∀ (x : List complex2) (inverse : Bool), (∃ k : ℕ, x.length = 2 ^ k) →
      ∃ y, dfft x 1 inverse = .ok y) ∧
    (∀ x : List complex2, (disc_fourier x).length = x.length) := by
  refine ⟨?_, ?_, ?_⟩
  · intro x inverse hne hnp
    refine dfft_not_pow2 x.length x rfl ?_ hnp 1 inverse
    intro h0
    exact hne (List.length_eq_zero.mp h0)
  · rintro x inverse ⟨k, hk⟩
    exact dfft_pow2_ok k x hk 1 inverse
  · intro x
    simp

/-- Witness for C5: a length-5 input raises `InvalidLength`, a length-2 input
succeeds, and `disc_fourier` maps a length-3 input to a length-3 output. -/
theorem dfft_invalid_length_witness :
    dfft [⟨1, 0⟩, ⟨1, 0⟩, ⟨1, 0⟩, ⟨1, 0⟩, ⟨1, 0⟩] 1 false = .error .invalidLength ∧
    (∃ y, dfft [⟨1, 0⟩, ⟨1, 0⟩] 1 false = .ok y) ∧
    (disc_fourier [⟨1, 0⟩, ⟨1, 0⟩, ⟨1, 0⟩]).length = 3 :=
  ⟨dfft_invalid_length.1 _ false (by simp) (by simpa using five_not_pow2),
   dfft_invalid_length.2.1 _ false ⟨1, rfl⟩,
   dfft_invalid_length.2.2 _⟩

lemma c2_mul_mk (a b c d : ℝ) : (⟨a, b⟩ : complex2) * ⟨c, d⟩ = ⟨c * a - d * b, c * b + d * a⟩ := rfl

lemma c2_add_mk (a b c d : ℝ) : (⟨a, b⟩ : complex2) + ⟨c, d⟩ = ⟨a + c, b + d⟩ := rfl

lemma c2_sub_mk (a b c d : ℝ) : (⟨a, b⟩ : complex2) - ⟨c, d⟩ = ⟨a - c, b - d⟩ := rfl

lemma c2_smulR_mk (r a b : ℝ) : complex2.smulR r ⟨a, b⟩ = ⟨r * a, r * b⟩ := rfl

lemma c2_divR_mk (a b r : ℝ) : complex2.divR ⟨a, b⟩ r = ⟨a / r, b / r⟩ := rfl

lemma exp2_mk (a b : ℝ) :
    exp2 ⟨a, b⟩ = ⟨Real.exp a * Real.cos b, Real.exp a * Real.sin b⟩ := rfl

/-- C2 (code-bug exhibit): on the length-2 input `[0, 1]` the inverse-flagged
recursive transform `dfft(x, 1, inverse=True)` does not compute
`disc_inv_fourier(x)`.  The source forgets to pass `inverse` to the
recursive calls and multiplies the twiddle factor by an extra `inv`, so it
returns `[-1/sqrt 2, 1/sqrt 2]` while the inverse DFT is
`[1/sqrt 2, -1/sqrt 2]`. -/
theorem dfft_inverse_bug :
    dfft [⟨0, 0⟩, ⟨1, 0⟩] 1 true = .ok [⟨-1 / Real.sqrt 2, 0⟩, ⟨1 / Real.sqrt 2, 0⟩] ∧
    disc_inv_fourier [⟨0, 0⟩, ⟨1, 0⟩] = [⟨1 / Real.sqrt 2, 0⟩, ⟨-1 / Real.sqrt 2, 0⟩] ∧
    dfft [⟨0, 0⟩, ⟨1, 0⟩] 1 true ≠ .ok (disc_inv_fourier [⟨0, 0⟩, ⟨1, 0⟩]) := by
  have hsq : Real.sqrt 2 ≠ 0 := by
    have h2 : (0 : ℝ) < Real.sqrt 2 := Real.sqrt_pos.mpr (by norm_num)
    linarith
  have hcomb : fftCombine [(⟨0, 0⟩ : complex2)] [(⟨1, 0⟩ : complex2)] true 2 =
      [⟨-1, 0⟩, ⟨1, 0⟩] := by
    simp only [fftCombine, ite_true_bool]
    rw [show (2 : ℕ) / 2 = 1 from rfl, show List.range 1 = [0] from rfl]
    simp only [List.map_cons, List.map_nil, List.getD_cons_zero]
    norm_num [c2_smulR_mk, exp2_mk, c2_mul_mk, c2_add_mk, c2_sub_mk,
      complex2.I, complex2.zero, Real.exp_zero, Real.cos_zero, Real.sin_zero]
  have h1 : dfft [(⟨0, 0⟩ : complex2), ⟨1, 0⟩] 1 true =
      .ok [⟨-1 / Real.sqrt 2, 0⟩, ⟨1 / Real.sqrt 2, 0⟩] := by
    rw [dfft_unfold _ 1 true (by simp) (by simp),
      show evens [(⟨0, 0⟩ : complex2), ⟨1, 0⟩] = [⟨0, 0⟩] from rfl,
      show odds [(⟨0, 0⟩ : complex2), ⟨1, 0⟩] = [⟨1, 0⟩] from rfl,
      dfft_singleton, dfft_singleton]
    simp only [except_ok_bind, List.length_cons, List.length_nil, if_pos]
    rw [show ((0 : ℕ) + 1 + 1 : ℕ) = 2 from rfl]
    rw [hcomb]
    norm_num [c2_divR_mk]
    rfl
  have h3 : disc_inv_fourier [(⟨0, 0⟩ : complex2), ⟨1, 0⟩] =
      [⟨1 / Real.sqrt 2, 0⟩, ⟨-1 / Real.sqrt 2, 0⟩] := by
    simp only [disc_inv_fourier, List.length_cons, List.length_nil]
    rw [show ((0 : ℕ) + 1 + 1 : ℕ) = 2 from rfl]
    rw [show List.range 2 = [0, 1] from rfl]
    simp only [List.map_cons, List.map_nil, List.foldl_cons, List.foldl_nil,
      List.getD_cons_zero, List.getD_cons_succ]
    norm_num [c2_smulR_mk, exp2_mk, c2_mul_mk, c2_add_mk, c2_divR_mk,
      complex2.I, complex2.zero, Real.exp_zero, Real.cos_zero, Real.sin_zero]
  refine ⟨h1, h3, ?_⟩
  rw [h1, h3]
  intro hcontra
  have hlist := Except.ok.inj hcontra
  have hhead : (⟨-1 / Real.sqrt 2, 0⟩ : complex2) = ⟨1 / Real.sqrt 2, 0⟩ := by
    injection hlist
  have hre : -1 / Real.sqrt 2 = 1 / Real.sqrt 2 := congrArg complex2.re hhead
  field_simp at hre
  norm_num at hre

/-! ### Complex division (`complex2.__div__`, lines 625-639) -/

lemma c2_ext {a b : complex2} (h1 : a.re = b.re) (h2 : a.im = b.im) : a = b := by
  cases a
  cases b
  simp_all

/-- C7: `complex2.__div__` raises `DivideByZero` exactly when the divisor's
magnitude is zero (a real divisor equal to `0`, or a complex divisor with
both components `0`); for any divisor of nonzero magnitude it returns a
quotient which, multiplied by the divisor, gives back the dividend, and no
error is raised. -/
theorem complex2_div_spec (z w : complex2) (r : ℝ) :
    (z.div w = .error .divideByZero ↔ w.mag = 0) ∧
    (w.mag = 0 ↔ w.re = 0 ∧ w.im = 0) ∧
    (w.mag ≠ 0 → ∃ q, z.div w = .ok q ∧ q * w = z) ∧
    (z.divReal r = .error .divideByZero ↔ r = 0) ∧
    (r ≠ 0 → ∃ q, z.divReal r = .ok q ∧ complex2.smulR r q = z) := by
  have hmagiff : w.mag = 0 ↔ w.re = 0 ∧ w.im = 0 := by
    rw [complex2.mag, Real.sqrt_eq_zero (by positivity)]
    constructor
    · intro h
      constructor
      · have h1 : w.re ^ 2 = 0 := by nlinarith [sq_nonneg w.re, sq_nonneg w.im]
        exact pow_eq_zero_iff two_ne_zero |>.mp h1
      · have h1 : w.im ^ 2 = 0 := by nlinarith [sq_nonneg w.re, sq_nonneg w.im]
        exact pow_eq_zero_iff two_ne_zero |>.mp h1
    · rintro ⟨h1, h2⟩
      rw [h1, h2]
      ring
  refine ⟨?_, hmagiff, ?_, ?_, ?_⟩
  · by_cases h : w.mag = 0
    · simp [complex2.div, h]
    · simp [complex2.div, h]
  · intro h
    have hna : ¬ (w.re = 0 ∧ w.im = 0) := fun hc => h (hmagiff.mpr hc)
    have hd : 0 < w.re ^ 2 + w.im ^ 2 := by
      rcases not_and_or.mp hna with h1 | h1
      · have := pow_two_pos_of_ne_zero h1
        nlinarith [sq_nonneg w.im]
      · have := pow_two_pos_of_ne_zero h1
        nlinarith [sq_nonneg w.re]
    have hd' : w.re ^ 2 + w.im ^ 2 ≠ 0 := hd.ne'
    refine ⟨⟨(z.re * w.re + z.im * w.im) / (w.re ^ 2 + w.im ^ 2),
            (z.im * w.re - z.re * w.im) / (w.re ^ 2 + w.im ^ 2)⟩, ?_, ?_⟩
    · simp [complex2.div, h]
    · apply c2_ext <;> simp only [complex2.mul_re, complex2.mul_im] <;> (field_simp; ring)
  · by_cases h : r = 0
    · simp [complex2.divReal, h]
    · simp [complex2.divReal, h]
  · intro h
    refine ⟨⟨z.re / r, z.im / r⟩, ?_, ?_⟩
    · simp [complex2.divReal, h]
    · apply c2_ext <;> simp only [complex2.smulR] <;> field_simp

/-- Witness for C7 at concrete dividends and divisors. -/
theorem complex2_div_spec_witness :
    (⟨3, 4⟩ : complex2).div ⟨0, 0⟩ = .error .divideByZero ∧
    (∃ q, (⟨3, 4⟩ : complex2).div ⟨1, 2⟩ = .ok q ∧ q * ⟨1, 2⟩ = ⟨3, 4⟩) ∧
    (⟨3, 4⟩ : complex2).divReal 0 = .error .divideByZero ∧
    (∃ q, (⟨3, 4⟩ : complex2).divReal 2 = .ok q ∧ complex2.smulR 2 q = ⟨3, 4⟩) := by
  have hmag0 : (⟨0, 0⟩ : complex2).mag = 0 := by
    simp [complex2.mag]
  have hmag12 : (⟨1, 2⟩ : complex2).mag ≠ 0 := by
    rw [complex2.mag]
    intro h
    rw [Real.sqrt_eq_zero (by positivity)] at h
    norm_num at h
  exact ⟨(complex2_div_spec ⟨3, 4⟩ ⟨0, 0⟩ 0).1.mpr hmag0,
    (complex2_div_spec ⟨3, 4⟩ ⟨1, 2⟩ 0).2.2.1 hmag12,
    (complex2_div_spec ⟨3, 4⟩ ⟨0, 0⟩ 0).2.2.2.1.mpr rfl,
    (complex2_div_spec ⟨3, 4⟩ ⟨0, 0⟩ 2).2.2.2.2 (by norm_num)⟩

/-! ### Runge-Kutta 4 (`physics.py`, lines 777-791) -/

/-- `runge_kutta4(y, f, t, dt)`, generic over any state type with addition
and real scalar multiplication.  The source's `k1*dt/2` (scalar product then
scalar division by the literal `2`) is `(1/2) • (dt • k1)`; `2*k2` is
`(2:ℝ) • k2`; `(dt/6)*(...)` is `(dt/6) • (...)`. -/
noncomputable def runge_kutta4 {Y : Type*} [AddCommMonoid Y] [Module ℝ Y]
    (y : Y) (f : ℝ → Y → Y) (t : ℝ) (dt : ℝ) : Y :=
  let k1 := f t y
  let k2 := f (t + dt / 2) (y + (1 / 2 : ℝ) • (dt • k1))
  let k3 := f (t + dt / 2) (y + (1 / 2 : ℝ) • (dt • k2))
  let k4 := f (t + dt) (y + dt • k3)
  y + (dt / 6) • (k1 + (2 : ℝ) • k2 + (2 : ℝ) • k3 + k4)

/-- C8: `runge_kutta4` returns exactly
`y + (dt/6)*(k1 + 2*k2 + 2*k3 + k4)` with `k1 = f(t,y)`,
`k2 = f(t+dt/2, y + (dt/2)*k1)`, `k3 = f(t+dt/2, y + (dt/2)*k2)` and
`k4 = f(t+dt, y + dt*k3)`, for every state closed under addition and real
scalar multiplication. -/
theorem runge_kutta4_spec {Y : Type*} [AddCommMonoid Y] [Module ℝ Y]
    (y : Y) (f : ℝ → Y → Y) (t dt : ℝ) :
    runge_kutta4 y f t dt =
      y + (dt / 6) • (f t y
        + (2 : ℝ) • f (t + dt / 2) (y + (dt / 2) • f t y)
        + (2 : ℝ) • f (t + dt / 2) (y + (dt / 2) • f (t + dt / 2) (y + (dt / 2) • f t y))
        + f (t + dt) (y + dt • f (t + dt / 2)
            (y + (dt / 2) • f (t + dt / 2) (y + (dt / 2) • f t y)))) := by
  have h : ∀ v : Y, (1 / 2 : ℝ) • (dt • v) = (dt / 2) • v := by
    intro v
    rw [smul_smul]
    congr 1
    ring
  simp only [runge_kutta4]
  rw [h, h]

/-! ### Root finders (`physics.py`, lines 793-886) -/

/-- The `for i in range(iterations-1)` loop of `num_bisection`, iterating
over the explicit index list.  Each pass: replace `a` or `b` by the previous
midpoint `c` according to `sign(f(c)*f(a))`, recompute the midpoint, return
it on an exact zero or when the half-bracket width is within tolerance, and
raise `NoConvergence` when `i == iterations - 1` (the source's dead branch);
falling off the end of the list returns Python's implicit `None`. -/
def bisectLoop {α : Type*} [LinearOrderedField α] (f : α → α) (tol : α)
    (iterations : ℕ) : α → α → α → List ℕ → Except Err (Option α)
  | _, _, _, [] => .ok none
  | a, b, c, i :: rest =>
    let p := if f c * f a > 0 then (c, b) else (a, c)
    let c' := (p.1 + p.2) / 2
    if f c' = 0 ∨ (-tol ≤ (p.1 - p.2) / 2 ∧ (p.1 - p.2) / 2 ≤ tol) then .ok (some c')
    else if i = iterations - 1 then .error .noConvergence
    else bisectLoop f tol iterations p.1 p.2 c' rest

/-- `num_bisection(function, a, b, iterations)`:
`iterations = int(math.sqrt(iterations**2))` (the absolute value), tolerance
`1e-6`, reorder so `a <= b`, take the midpoint, return any of `a`, `b`, `c`
that is an exact zero, then run the loop over `range(iterations-1)`. -/
def num_bisection {α : Type*} [LinearOrderedField α] (f : α → α) (a b : α)
    (iterations : ℤ) : Except Err (Option α) :=
  let iters : ℕ := iterations.natAbs
  let tol : α := 1 / 1000000
  let p := if a > b then (b, a) else (a, b)
  let c := (p.1 + p.2) / 2
  if f p.1 = 0 then .ok (some p.1)
  else if f p.2 = 0 then .ok (some p.2)
  else if f c = 0 then .ok (some c)
  else bisectLoop f tol iters p.1 p.2 c (List.range (iters - 1))

deriving instance DecidableEq for Except

lemma bisectLoop_no_error {α : Type*} [LinearOrderedField α] (f : α → α) (tol : α)
    (iterations : ℕ) : ∀ (l : List ℕ), (∀ i ∈ l, i < iterations - 1) →
    ∀ (a b c : α), bisectLoop f tol iterations a b c l ≠ .error .noConvergence
  | [], _ => by
      intro a b c
      simp [bisectLoop]
  | i :: rest, h => by
      intro a b c
      have hi : i < iterations - 1 := h i (List.mem_cons_self i rest)
      simp only [bisectLoop]
      by_cases hA : f c * f a > 0
      · rw [if_pos hA]
        by_cases h1 : f ((c + b) / 2) = 0 ∨ (-tol ≤ (c - b) / 2 ∧ (c - b) / 2 ≤ tol)
        · rw [if_pos h1]
          simp
        · rw [if_neg h1, if_neg (by omega : ¬ i = iterations - 1)]
          exact bisectLoop_no_error f tol iterations rest
            (fun j hj => h j (List.mem_cons_of_mem i hj)) _ _ _
      · rw [if_neg hA]
        by_cases h1 : f ((a + c) / 2) = 0 ∨ (-tol ≤ (a - c) / 2 ∧ (a - c) / 2 ≤ tol)
        · rw [if_pos h1]
          simp
        · rw [if_neg h1, if_neg (by omega : ¬ i = iterations - 1)]
          exact bisectLoop_no_error f tol iterations rest
            (fun j hj => h j (List.mem_cons_of_mem i hj)) _ _ _

/-- C1 (code-bug exhibit): `num_bisection` can never raise `NoConvergence` —
the guard `i == iterations - 1` is unreachable inside
`range(iterations - 1)` — and on the concrete exhausting run
`f = x^2 - 2`, bracket `(1, 2)`, `iterations = 2` it falls off the loop and
returns Python's implicit `None` instead of raising. -/
theorem num_bisection_never_no_convergence :
    (∀ (α : Type) [inst : LinearOrderedField α] (f : α → α) (a b : α) (n : ℤ),
      num_bisection f a b n ≠ .error .noConvergence) ∧
    num_bisection (fun x : ℚ => x * x - 2) 1 2 2 = .ok none := by
  constructor
  · intro α inst f a b n
    simp only [num_bisection]
    split_ifs <;>
      first
        | exact fun hc => Except.noConfusion hc
        | exact bisectLoop_no_error _ _ _ _ (fun j hj => List.mem_range.mp hj) _ _ _
  · simp only [num_bisection]
    rw [show ((2 : ℤ).natAbs - 1) = 1 from rfl, show List.range 1 = [0] from rfl]
    norm_num [bisectLoop]

/-- `num_secant(function, guess1, guess2, iterations, tol=1e-6)`
(`physics.py`, lines 866-886).  Each pass: return `guess1` if
`f(guess1) == 0` or the guesses are within `tol`; return `guess2` if
`f(guess2) == 0`; otherwise `c = g1 - f(g1)*(g1-g2)/(f(g1)-f(g2))` (a zero
denominator raises Python's `ZeroDivisionError`) and shift
`(g1, g2) <- (c, g1)`; after the last pass return `guess1`. -/
def num_secant {α : Type*} [LinearOrderedField α] (f : α → α)
    (guess1 guess2 : α) (iterations : ℕ) (tol : α) : Except Err α :=
  match iterations with
  | 0 => .ok guess1
  | n + 1 =>
    let f1 := f guess1
    let f2 := f guess2
    if f1 = 0 ∨ (-tol ≤ guess1 - guess2 ∧ guess1 - guess2 ≤ tol) then .ok guess1
    else if f2 = 0 then .ok guess2
    else if f1 - f2 = 0 then .error .divideByZero
    else num_secant f (guess1 - f1 * (guess1 - guess2) / (f1 - f2)) guess1 n tol

/-- C9: if the second guess is an exact root while the first is not and the
guesses are farther apart than the tolerance `1e-6`, `num_secant` returns
`guess2` in its first iteration. -/
theorem num_secant_second_guess_root {α : Type*} [LinearOrderedField α]
    (f : α → α) (g1 g2 : α) (n : ℕ) (hn : 1 ≤ n)
    (h2 : f g2 = 0) (h1 : f g1 ≠ 0) (hfar : (1 : α) / 1000000 < |g1 - g2|) :
    num_secant f g1 g2 n (1 / 1000000) = .ok g2 := by
  obtain ⟨m, rfl⟩ : ∃ m, n = m + 1 := ⟨n - 1, by omega⟩
  simp only [num_secant]
  have hcond : ¬ (f g1 = 0 ∨
      (-(1 / 1000000 : α) ≤ g1 - g2 ∧ g1 - g2 ≤ 1 / 1000000)) := by
    rintro (hA | ⟨hB, hC⟩)
    · exact h1 hA
    · have habs : |g1 - g2| ≤ 1 / 1000000 := abs_le.mpr ⟨hB, hC⟩
      linarith
  rw [if_neg hcond, if_pos h2]

/-- Witness for C9: `f(x) = x - 1`, guesses `0` and `1`, one iteration. -/
theorem num_secant_second_guess_root_witness :
    num_secant (fun x : ℚ => x - 1) 0 1 1 (1 / 1000000) = .ok 1 :=
  num_secant_second_guess_root (fun x : ℚ => x - 1) 0 1 1 (le_refl 1)
    (by norm_num) (by norm_num) (by norm_num)

/-- The `for i in range(iterations)` loop of `num_linear`
(`physics.py`, lines 826-851), by remaining iteration count.
`fb/fa` raises `ZeroDivisionError` when `fa == 0`, and the division by
`fb/fa - 1` raises when that denominator is zero; otherwise
`c = a - (b-a)/(fb/fa - 1)`, an exact zero of `f` returns `c`, else `a` or
`b` is replaced by `c` by the sign of `f(c)*f(a)`; after the final pass the
last `c` is returned.  With zero total iterations the source's `return c`
reads an unassigned variable (`UnboundLocalError`, modelled as
`nameError`). -/
def numLinearLoop {α : Type*} [LinearOrderedField α] (f : α → α) :
    α → α → ℕ → Except Err α
  | _, _, 0 => .error .nameError
  | a, b, n + 1 =>
    let fa := f a
    if fa = 0 then .error .divideByZero
    else
      let fb := f b
      if fb / fa - 1 = 0 then .error .divideByZero
      else
        let c := a - (b - a) / (fb / fa - 1)
        let new := f c
        if new = 0 then .ok c
        else if n = 0 then .ok c
        else if new * f a > 0 then numLinearLoop f c b n
        else numLinearLoop f a c n

/-- `num_linear(function, a, b, iterations)`: absolute value of the
iteration count, reorder so `a <= b`, then run the loop. -/
def num_linear {α : Type*} [LinearOrderedField α] (f : α → α) (a b : α)
    (iterations : ℤ) : Except Err α :=
  let iters : ℕ := iterations.natAbs
  let p := if a > b then (b, a) else (a, b)
  numLinearLoop f p.1 p.2 iters

/-- C10: whenever the loop of `num_linear` starts a pass (at least one
iteration remaining) with `f(a) = 0`, the unguarded quotient `f(b)/f(a)`
raises a division-by-zero error; in particular `num_linear` raises it when
the lower end of the reordered bracket is already an exact root at call
time, rather than returning that root. -/
theorem num_linear_root_at_a_divides {α : Type*} [LinearOrderedField α] (f : α → α) :
    (∀ (a b : α) (n : ℕ), f a = 0 →
      numLinearLoop f a b (n + 1) = .error .divideByZero) ∧
    (∀ (a b : α) (n : ℤ), 1 ≤ n → f (min a b) = 0 →
      num_linear f a b n = .error .divideByZero) := by
  have hloop : ∀ (a b : α) (n : ℕ), f a = 0 →
      numLinearLoop f a b (n + 1) = .error .divideByZero := by
    intro a b n hfa
    simp only [numLinearLoop]
    rw [if_pos hfa]
  refine ⟨hloop, ?_⟩
  intro a b n hn hmin
  simp only [num_linear]
  obtain ⟨m, hm⟩ : ∃ m : ℕ, n.natAbs = m + 1 := ⟨n.natAbs - 1, by omega⟩
  rw [hm]
  by_cases hab : a > b
  · rw [if_pos hab]
    exact hloop b a m (by rwa [min_eq_right (le_of_lt hab)] at hmin)
  · rw [if_neg hab]
    exact hloop a b m (by rwa [min_eq_left (le_of_not_lt hab)] at hmin)

/-- Witness for C10: the identity function has its exact root `0` at the
lower end of the bracket `(0, 1)`, and `num_linear` raises the division
error instead of returning it. -/
theorem num_linear_root_at_a_divides_witness :
    num_linear (fun x : ℚ => x) 0 1 1 = .error .divideByZero :=
  (num_linear_root_at_a_divides (fun x : ℚ => x)).2 0 1 1 (by norm_num)
    (by show min (0 : ℚ) 1 = 0; exact min_eq_left (by norm_num))
